import Mathlib

/-!
Shallow embedding of the expression IR and lowering-support core of the taco
tensor-algebra compiler (src/expr/expr.cpp, src/lower/expr_tools.cpp,
src/lower/lower_codegen.cpp), together with theorems settling the
specification claims about it.
-/

namespace Taco

/-- An index variable (`IndexVar`). Its C++ identity is the address of its
private `Content` block (`operator==` compares `content` pointers); we model
that address as a numeric id. The display name is not read by any modelled
operation and is omitted. -/
structure IndexVar where
  id : Nat
deriving DecidableEq

/-- A tensor dimension size (`Dimension`, from the type subsystem outside the
provided sources; modelled as a plain size since the modelled operations only
store and compare dimensions). -/
structure Dimension where
  size : Nat
deriving DecidableEq

/-- A tensor variable (`TensorVar`). Its C++ identity is the address of its
shared `Content` block (`operator==` compares `content` pointers), modelled as
a numeric id. We carry the declared shape (the only part of the type that the
modelled operations read) alongside the id; distinct content blocks receive
distinct ids, so structural equality of this record coincides with the C++
pointer equality. The mutable definition fields (`freeVars`, `indexExpr`,
`accumulate`) are modelled separately as `TensorDef` state below. The name,
element type, storage format and schedule are not read by any modelled
operation and are omitted. -/
structure TensorVar where
  id : Nat
  shape : List Dimension
deriving DecidableEq

/-- The expression IR: the closed variant set of `ExprNode`
(`AccessNode`, `NegNode`, `SqrtNode`, `AddNode`, `SubNode`, `MulNode`,
`DivNode`, `IntImmNode`, `FloatImmNode`, `ComplexImmNode`, `UIntImmNode`).
Immediate payloads are modelled as exact values with decidable equality
(`Int` for signed ints; `Int` also stands in for IEEE doubles and `Int × Int`
for complex doubles — no claim computes with immediate values, they are only
stored and compared, and IEEE NaN corner behavior is out of scope).
The append-only `operatorSplits` side list and the `dataType` field are
omitted: no modelled operation reads them. An undefined expression
(`IndexExpr()` in C++, a null handle) is modelled as `none` at
`Option IndexExpr`. -/
inductive IndexExpr where
  | access (tensorVar : TensorVar) (indexVars : List IndexVar)
  | neg (a : IndexExpr)
  | sqrt (a : IndexExpr)
  | add (a b : IndexExpr)
  | sub (a b : IndexExpr)
  | mul (a b : IndexExpr)
  | div (a b : IndexExpr)
  | intImm (val : Int)
  | floatImm (val : Int)
  | complexImm (val : Int × Int)
  | uintImm (val : Nat)
deriving DecidableEq

/-- The index-variable comparison loop of `Equals::visit(AccessNode)`
(expr.cpp:98-103): it iterates over `anode->indexVars` positions and compares
against `bnode->indexVars` at the same position. When `bnode`'s vector is
shorter the C++ reads out of bounds (undefined behavior, since the length
guard on line 94 is dead, see `structEquals`); we model that out-of-bounds
read as a mismatch. -/
def accessIndexVarsMatch : List IndexVar → List IndexVar → Bool
  | [], _ => true
  | x :: xs, y :: ys => x == y && accessIndexVarsMatch xs ys
  | _ :: _, [] => false

/-- The `Equals` visitor of expr.cpp:71-184: recursive structural comparison
keyed by variant. The access case mirrors expr.cpp:83-106 faithfully,
including the length guard on line 94, which compares
`anode->indexVars.size() != anode->indexVars.size()` — a self-comparison that
is always false, so the guard never fires. -/
def structEquals : IndexExpr → IndexExpr → Bool
  | .access t1 v1, .access t2 v2 =>
    t1 == t2 && (v1.length == v1.length) && accessIndexVarsMatch v1 v2
  | .neg a1, .neg a2 => structEquals a1 a2
  | .sqrt a1, .sqrt a2 => structEquals a1 a2
  | .add a1 b1, .add a2 b2 => structEquals a1 a2 && structEquals b1 b2
  | .sub a1 b1, .sub a2 b2 => structEquals a1 a2 && structEquals b1 b2
  | .mul a1 b1, .mul a2 b2 => structEquals a1 a2 && structEquals b1 b2
  | .div a1 b1, .div a2 b2 => structEquals a1 a2 && structEquals b1 b2
  | .intImm v1, .intImm v2 => v1 == v2
  | .floatImm v1, .floatImm v2 => v1 == v2
  | .complexImm v1, .complexImm v2 => v1 == v2
  | .uintImm v1, .uintImm v2 => v1 == v2
  | _, _ => false

/-- Toplevel `equals(IndexExpr, IndexExpr)` of expr.cpp:186-194: two undefined
expressions are equal, a defined and an undefined expression are unequal,
otherwise the `Equals` visitor compares structurally. -/
def equals : Option IndexExpr → Option IndexExpr → Bool
  | none, none => true
  | some _, none => false
  | none, some _ => false
  | some a, some b => structEquals a b

/-- Concrete index variables for counterexamples and witnesses. -/
def varI : IndexVar := ⟨0⟩

def varJ : IndexVar := ⟨1⟩

/-- Concrete tensor variables (distinct content ids) for counterexamples and
witnesses. -/
def tenA : TensorVar := ⟨0, [⟨2⟩]⟩

def tenB : TensorVar := ⟨1, [⟨2⟩]⟩

def tenC : TensorVar := ⟨2, [⟨2⟩]⟩

/-- An Access handle: a tensor variable applied to a tuple of index variables
(the payload of `AccessNode`, wrapped by the `Access` class, expr.cpp:197-237).
The simplifier keeps a `set<Access>` of exhausted accesses; the set's
comparator lives outside the provided sources — per the spec (§3), the
exhausted set is keyed "by structural access identity, not by expression
identity", so membership is modelled as structural equality of this record. -/
structure Access where
  tensorVar : TensorVar
  indexVars : List IndexVar
deriving DecidableEq

/-- The disjunctive-binary rule of `Simplify::visitDisjunctionOp`
(expr.cpp:488-507), applied to the rewritten operands: undefined only when
both operands are undefined; if exactly one is undefined the other operand is
the result; otherwise a node of the same kind over the rewritten operands.
(The C++ reuses the original node when both operands are pointer-unchanged
and otherwise allocates `new T(a, b)`; the two branches build structurally
identical trees, which is what this pure model represents.) -/
def disjunctionOp (mk : IndexExpr → IndexExpr → IndexExpr) :
    Option IndexExpr → Option IndexExpr → Option IndexExpr
  | none, none => none
  | none, some b => some b
  | some a, none => some a
  | some a, some b => some (mk a b)

/-- The conjunctive-binary rule of `Simplify::visitConjunctionOp`
(expr.cpp:509-522), applied to the rewritten operands: undefined when either
operand is undefined, otherwise a node of the same kind over the rewritten
operands (same rebuild-if-changed remark as `disjunctionOp`). -/
def conjunctionOp (mk : IndexExpr → IndexExpr → IndexExpr) :
    Option IndexExpr → Option IndexExpr → Option IndexExpr
  | some a, some b => some (mk a b)
  | _, _ => none

/-- The `Simplify` rewriter (expr.cpp:449-559): replaces every Access that is
a member of the exhausted set with an undefined expression and propagates
emptiness upward — unary nodes become undefined with their operand, add and
subtract drop an undefined side (`visitDisjunctionOp`), multiply and divide
become undefined with either side (`visitConjunctionOp`), and immediates are
preserved unchanged. -/
def simplify (exhausted : List Access) : IndexExpr → Option IndexExpr
  | .access tv idx =>
    if (⟨tv, idx⟩ : Access) ∈ exhausted then none else some (.access tv idx)
  | .neg a => (simplify exhausted a).map .neg
  | .sqrt a => (simplify exhausted a).map .sqrt
  | .add a b => disjunctionOp .add (simplify exhausted a) (simplify exhausted b)
  | .sub a b => disjunctionOp .sub (simplify exhausted a) (simplify exhausted b)
  | .mul a b => conjunctionOp .mul (simplify exhausted a) (simplify exhausted b)
  | .div a b => conjunctionOp .div (simplify exhausted a) (simplify exhausted b)
  | .intImm v => some (.intImm v)
  | .floatImm v => some (.floatImm v)
  | .complexImm v => some (.complexImm v)
  | .uintImm v => some (.uintImm v)

/-- C5: the claim says two Accesses on the same tensor variable whose index
tuples have different lengths are unequal. The code's length guard
(expr.cpp:94) compares `anode->indexVars.size()` against itself and never
fires, so an Access with an empty index tuple compares equal to an Access on
the same tensor with a one-variable tuple: evaluating the code at the failing
input shows `equals(A(), A(i)) = true`. (The accesses are built through the
arity-unchecked `Access(tensor, indices)` constructor, expr.cpp:201.) -/
theorem equals_access_arity_bug :
    equals (some (.access tenA [])) (some (.access tenA [varI])) = true := by
  decide

/-- C6: the claim says `equals` is an equivalence relation, in particular
symmetric. Because the dead length guard (expr.cpp:94) lets a shorter index
tuple compare equal to a longer one on the same tensor
(`equals(A(), A(i)) = true`), while the reverse direction
`equals(A(i), A())` reads `bnode->indexVars[0]` out of bounds (undefined
behavior, modelled as a mismatch) and yields false, symmetry fails. -/
theorem equals_not_symmetric :
    equals (some (.access tenA [])) (some (.access tenA [varI])) = true ∧
    equals (some (.access tenA [varI])) (some (.access tenA [])) = false := by
  decide

/-- C3: the simplifier replaces exhausted Accesses with undefined and
propagates emptiness: add and subtract become undefined only when both
rewritten operands are undefined and collapse to the surviving operand when
exactly one is; multiply and divide become undefined when either operand is;
immediates are preserved unchanged; `simplify(e, {})` returns an expression
structurally equal to `e` (the model returns `e` itself);
`simplify(a(i) + b(i), {a(i)})` is `b(i)` and `simplify(a(i) * b(i), {a(i)})`
is undefined. -/
theorem simplify_contract :
    (∀ e, simplify [] e = some e) ∧
    (∀ X tv idx, simplify X (.access tv idx) =
      if (⟨tv, idx⟩ : Access) ∈ X then none else some (.access tv idx)) ∧
    (∀ X a b, simplify X (.add a b) = none ↔
      simplify X a = none ∧ simplify X b = none) ∧
    (∀ X a b, simplify X (.sub a b) = none ↔
      simplify X a = none ∧ simplify X b = none) ∧
    (∀ X a b b1, simplify X a = none → simplify X b = some b1 →
      simplify X (.add a b) = some b1) ∧
    (∀ X a b a1, simplify X a = some a1 → simplify X b = none →
      simplify X (.add a b) = some a1) ∧
    (∀ X a b b1, simplify X a = none → simplify X b = some b1 →
      simplify X (.sub a b) = some b1) ∧
    (∀ X a b a1, simplify X a = some a1 → simplify X b = none →
      simplify X (.sub a b) = some a1) ∧
    (∀ X a b, simplify X (.mul a b) = none ↔
      simplify X a = none ∨ simplify X b = none) ∧
    (∀ X a b, simplify X (.div a b) = none ↔
      simplify X a = none ∨ simplify X b = none) ∧
    (∀ X (v : Int) (w : Int × Int) (u : Nat),
      simplify X (.intImm v) = some (.intImm v) ∧
      simplify X (.floatImm v) = some (.floatImm v) ∧
      simplify X (.complexImm w) = some (.complexImm w) ∧
      simplify X (.uintImm u) = some (.uintImm u)) ∧
    (∀ A B i, A ≠ B →
      simplify [⟨A, [i]⟩] (.add (.access A [i]) (.access B [i]))
        = some (.access B [i]) ∧
      simplify [⟨A, [i]⟩] (.mul (.access A [i]) (.access B [i])) = none) := by
  refine ⟨?_, ?_, ?_, ?_, ?_, ?_, ?_, ?_, ?_, ?_, ?_, ?_⟩
  · intro e
    induction e with
    | access tv idx => simp [simplify]
    | neg a ih => simp [simplify, ih]
    | sqrt a ih => simp [simplify, ih]
    | add a b ih1 ih2 => simp [simplify, ih1, ih2, disjunctionOp]
    | sub a b ih1 ih2 => simp [simplify, ih1, ih2, disjunctionOp]
    | mul a b ih1 ih2 => simp [simplify, ih1, ih2, conjunctionOp]
    | div a b ih1 ih2 => simp [simplify, ih1, ih2, conjunctionOp]
    | intImm v => rfl
    | floatImm v => rfl
    | complexImm v => rfl
    | uintImm v => rfl
  · intro X tv idx
    rfl
  · intro X a b
    simp only [simplify]
    cases simplify X a <;> cases simplify X b <;> simp [disjunctionOp]
  · intro X a b
    simp only [simplify]
    cases simplify X a <;> cases simplify X b <;> simp [disjunctionOp]
  · intro X a b b1 h1 h2
    simp [simplify, h1, h2, disjunctionOp]
  · intro X a b a1 h1 h2
    simp [simplify, h1, h2, disjunctionOp]
  · intro X a b b1 h1 h2
    simp [simplify, h1, h2, disjunctionOp]
  · intro X a b a1 h1 h2
    simp [simplify, h1, h2, disjunctionOp]
  · intro X a b
    simp only [simplify]
    cases simplify X a <;> cases simplify X b <;> simp [conjunctionOp]
  · intro X a b
    simp only [simplify]
    cases simplify X a <;> cases simplify X b <;> simp [conjunctionOp]
  · intro X v w u
    exact ⟨rfl, rfl, rfl, rfl⟩
  · intro A B i hAB
    have hne : (⟨B, [i]⟩ : Access) ≠ ⟨A, [i]⟩ := by
      intro h
      exact hAB (congrArg Access.tensorVar h).symm
    constructor
    · simp [simplify, disjunctionOp, hne]
    · simp [simplify, conjunctionOp, hne]

/-- Witness for C3: the concrete part instantiated with distinct tensors
`tenA`, `tenB` and index variable `varI`. -/
theorem simplify_contract_witness :
    simplify [⟨tenA, [varI]⟩]
        (.add (.access tenA [varI]) (.access tenB [varI]))
      = some (.access tenB [varI]) ∧
    simplify [⟨tenA, [varI]⟩]
        (.mul (.access tenA [varI]) (.access tenB [varI])) = none :=
  simplify_contract.2.2.2.2.2.2.2.2.2.2.2 tenA tenB varI (by decide)

/-- The binary rule of `SubExprVisitor::binarySubExpr` (expr_tools.cpp:220-235),
applied to the recursively extracted operands: both defined yields a freshly
built node of the same kind over the two extractions (`new T(a, b)`), exactly
one defined yields that one directly, neither yields undefined. -/
def binarySubExpr (mk : IndexExpr → IndexExpr → IndexExpr) :
    Option IndexExpr → Option IndexExpr → Option IndexExpr
  | some a, some b => some (mk a b)
  | some a, none => some a
  | none, some b => some b
  | none, none => none

/-- The canonical sub-expression extractor, `getSubExpr` via `SubExprVisitor`
(expr_tools.cpp:175-272): an Access is kept as-is iff at least one of its
index variables is a target variable; a unary node is kept as the original
node (`unarySubExpr` returns `op`, not a node over the extraction,
expr_tools.cpp:206-210) iff its operand extraction is defined; binary nodes
follow `binarySubExpr`; immediates are always undefined. -/
def getSubExpr (vars : List IndexVar) : IndexExpr → Option IndexExpr
  | .access tv idx =>
    if idx.any (vars.contains ·) then some (.access tv idx) else none
  | .neg a => if (getSubExpr vars a).isSome then some (.neg a) else none
  | .sqrt a => if (getSubExpr vars a).isSome then some (.sqrt a) else none
  | .add a b => binarySubExpr .add (getSubExpr vars a) (getSubExpr vars b)
  | .sub a b => binarySubExpr .sub (getSubExpr vars a) (getSubExpr vars b)
  | .mul a b => binarySubExpr .mul (getSubExpr vars a) (getSubExpr vars b)
  | .div a b => binarySubExpr .div (getSubExpr vars a) (getSubExpr vars b)
  | .intImm _ => none
  | .floatImm _ => none
  | .complexImm _ => none
  | .uintImm _ => none

/-- The older sub-expression extractor, `getSubExprOld`
(expr_tools.cpp:108-173): identical to `getSubExpr` except in the
both-defined binary case, where it returns the original node (`subExpr = op`,
expr_tools.cpp:153-154) instead of building a fresh node over the two
extractions. -/
def getSubExprOld (vars : List IndexVar) : IndexExpr → Option IndexExpr
  | .access tv idx =>
    if idx.any (vars.contains ·) then some (.access tv idx) else none
  | .neg a => if (getSubExprOld vars a).isSome then some (.neg a) else none
  | .sqrt a => if (getSubExprOld vars a).isSome then some (.sqrt a) else none
  | .add a b =>
    match getSubExprOld vars a, getSubExprOld vars b with
    | some _, some _ => some (.add a b)
    | some a1, none => some a1
    | none, some b1 => some b1
    | none, none => none
  | .sub a b =>
    match getSubExprOld vars a, getSubExprOld vars b with
    | some _, some _ => some (.sub a b)
    | some a1, none => some a1
    | none, some b1 => some b1
    | none, none => none
  | .mul a b =>
    match getSubExprOld vars a, getSubExprOld vars b with
    | some _, some _ => some (.mul a b)
    | some a1, none => some a1
    | none, some b1 => some b1
    | none, none => none
  | .div a b =>
    match getSubExprOld vars a, getSubExprOld vars b with
    | some _, some _ => some (.div a b)
    | some a1, none => some a1
    | none, some b1 => some b1
    | none, none => none
  | .intImm _ => none
  | .floatImm _ => none
  | .complexImm _ => none
  | .uintImm _ => none

/-- The sub-expression extractor as described by the specification's words
(§4.4 and claim C1), for comparison with the source's `getSubExpr`: identical
except that a kept unary node is said to wrap the recursively extracted
operand instead of the original one. -/
def getSubExprSpec (vars : List IndexVar) : IndexExpr → Option IndexExpr
  | .access tv idx =>
    if idx.any (vars.contains ·) then some (.access tv idx) else none
  | .neg a => (getSubExprSpec vars a).map .neg
  | .sqrt a => (getSubExprSpec vars a).map .sqrt
  | .add a b =>
    binarySubExpr .add (getSubExprSpec vars a) (getSubExprSpec vars b)
  | .sub a b =>
    binarySubExpr .sub (getSubExprSpec vars a) (getSubExprSpec vars b)
  | .mul a b =>
    binarySubExpr .mul (getSubExprSpec vars a) (getSubExprSpec vars b)
  | .div a b =>
    binarySubExpr .div (getSubExprSpec vars a) (getSubExprSpec vars b)
  | .intImm _ => none
  | .floatImm _ => none
  | .complexImm _ => none
  | .uintImm _ => none

/-- C1 counterexample: the claim says a kept unary node wraps the recursively
extracted operand; the code (`unarySubExpr`, expr_tools.cpp:206-210) returns
the original node. For `e = -(a(i) + b(j))` and target set `{i}` the operand
extraction is `a(i)` (second conjunct), so the claim predicts `-(a(i))`, but
`getSubExpr` returns `e` unchanged (first conjunct), which differs from the
claim-faithful `getSubExprSpec` (third conjunct). -/
theorem getSubExpr_keeps_original_unary :
    getSubExpr [varI] (.neg (.add (.access tenA [varI]) (.access tenB [varJ])))
      = some (.neg (.add (.access tenA [varI]) (.access tenB [varJ]))) ∧
    getSubExpr [varI] (.add (.access tenA [varI]) (.access tenB [varJ]))
      = some (.access tenA [varI]) ∧
    getSubExpr [varI] (.neg (.add (.access tenA [varI]) (.access tenB [varJ])))
      ≠ getSubExprSpec [varI]
          (.neg (.add (.access tenA [varI]) (.access tenB [varJ]))) := by
  refine ⟨by decide, by decide, by decide⟩

/-- C1 (amended): `getSubExpr` keeps an Access as-is iff at least one of its
index variables is a target variable; keeps a unary node as the original node
(not rebuilt around the extraction) iff the operand extraction is defined;
for a binary node builds a new node of the same kind over the two extractions
when both are defined, returns the sole defined extraction directly when
exactly one is, and is undefined when neither is; immediates are always
undefined. -/
theorem getSubExpr_contract (vars : List IndexVar) :
    (∀ tv idx, getSubExpr vars (.access tv idx) =
      if ∃ v ∈ idx, v ∈ vars then some (.access tv idx) else none) ∧
    (∀ a, getSubExpr vars (.neg a) =
      if (getSubExpr vars a).isSome then some (.neg a) else none) ∧
    (∀ a, getSubExpr vars (.sqrt a) =
      if (getSubExpr vars a).isSome then some (.sqrt a) else none) ∧
    (∀ mk, (mk = IndexExpr.add ∨ mk = IndexExpr.sub ∨
            mk = IndexExpr.mul ∨ mk = IndexExpr.div) → ∀ a b,
      (∀ a1 b1, getSubExpr vars a = some a1 → getSubExpr vars b = some b1 →
        getSubExpr vars (mk a b) = some (mk a1 b1)) ∧
      (∀ a1, getSubExpr vars a = some a1 → getSubExpr vars b = none →
        getSubExpr vars (mk a b) = some a1) ∧
      (∀ b1, getSubExpr vars a = none → getSubExpr vars b = some b1 →
        getSubExpr vars (mk a b) = some b1) ∧
      (getSubExpr vars a = none → getSubExpr vars b = none →
        getSubExpr vars (mk a b) = none)) ∧
    (∀ (v : Int) (w : Int × Int) (u : Nat),
      getSubExpr vars (.intImm v) = none ∧
      getSubExpr vars (.floatImm v) = none ∧
      getSubExpr vars (.complexImm w) = none ∧
      getSubExpr vars (.uintImm u) = none) := by
  refine ⟨?_, fun a => rfl, fun a => rfl, ?_, fun v w u => ⟨rfl, rfl, rfl, rfl⟩⟩
  · intro tv idx
    simp only [getSubExpr, List.any_eq_true, List.elem_iff]
  · rintro mk (rfl | rfl | rfl | rfl) a b <;>
      exact ⟨fun a1 b1 h1 h2 => by simp [getSubExpr, binarySubExpr, h1, h2],
             fun a1 h1 h2 => by simp [getSubExpr, binarySubExpr, h1, h2],
             fun b1 h1 h2 => by simp [getSubExpr, binarySubExpr, h1, h2],
             fun h1 h2 => by simp [getSubExpr, binarySubExpr, h1, h2]⟩

/-- Witness for C1: the both-defined add clause of `getSubExpr_contract`
instantiated at `a(i) + b(i)` with target set `{i}`. -/
theorem getSubExpr_contract_witness :
    getSubExpr [varI] (.add (.access tenA [varI]) (.access tenB [varI]))
      = some (.add (.access tenA [varI]) (.access tenB [varI])) :=
  ((getSubExpr_contract [varI]).2.2.2.1 IndexExpr.add (Or.inl rfl)
      (.access tenA [varI]) (.access tenB [varI])).1
    (.access tenA [varI]) (.access tenB [varI]) (by decide) (by decide)

/-- C2 counterexample: for `e = (a(i) + b(j)) + c(i)` and variable list `{i}`
the old extractor keeps the original inner node (`(a(i) + b(j)) + c(i)`,
expr_tools.cpp:153-154) while the canonical one rebuilds (`a(i) + c(i)`),
so the two results are not structurally equal. -/
theorem getSubExprOld_ne_getSubExpr :
    equals
      (getSubExprOld [varI]
        (.add (.add (.access tenA [varI]) (.access tenB [varJ]))
          (.access tenC [varI])))
      (getSubExpr [varI]
        (.add (.add (.access tenA [varI]) (.access tenB [varJ]))
          (.access tenC [varI]))) = false := by
  decide

/-- C2 (amended): `getSubExprOld` and `getSubExpr` agree on definedness for
every expression and variable list (both defined or both undefined), but
their defined results need not be structurally equal: the old extractor
returns original binary nodes where the canonical one rebuilds fresh nodes
over the extractions. -/
theorem getSubExprOld_defined_iff_getSubExpr (vars : List IndexVar)
    (e : IndexExpr) :
    (getSubExprOld vars e).isSome = (getSubExpr vars e).isSome := by
  induction e with
  | access tv idx => rfl
  | neg a ih => simp [getSubExprOld, getSubExpr, ih]
  | sqrt a ih => simp [getSubExprOld, getSubExpr, ih]
  | add a b ih1 ih2 =>
    simp only [getSubExprOld, getSubExpr]
    cases hA : getSubExprOld vars a <;> cases hB : getSubExprOld vars b <;>
      cases hA2 : getSubExpr vars a <;> cases hB2 : getSubExpr vars b <;>
      simp_all [binarySubExpr]
  | sub a b ih1 ih2 =>
    simp only [getSubExprOld, getSubExpr]
    cases hA : getSubExprOld vars a <;> cases hB : getSubExprOld vars b <;>
      cases hA2 : getSubExpr vars a <;> cases hB2 : getSubExpr vars b <;>
      simp_all [binarySubExpr]
  | mul a b ih1 ih2 =>
    simp only [getSubExprOld, getSubExpr]
    cases hA : getSubExprOld vars a <;> cases hB : getSubExprOld vars b <;>
      cases hA2 : getSubExpr vars a <;> cases hB2 : getSubExpr vars b <;>
      simp_all [binarySubExpr]
  | div a b ih1 ih2 =>
    simp only [getSubExprOld, getSubExpr]
    cases hA : getSubExprOld vars a <;> cases hB : getSubExprOld vars b <;>
      cases hA2 : getSubExpr vars a <;> cases hB2 : getSubExpr vars b <;>
      simp_all [binarySubExpr]
  | intImm v => rfl
  | floatImm v => rfl
  | complexImm v => rfl
  | uintImm v => rfl

/-- The leaf nodes (Access and immediate nodes) of an expression in
left-to-right order; a shared subtree contributes once per tree position. -/
def leaves : IndexExpr → List IndexExpr
  | .access tv idx => [.access tv idx]
  | .neg a => leaves a
  | .sqrt a => leaves a
  | .add a b => leaves a ++ leaves b
  | .sub a b => leaves a ++ leaves b
  | .mul a b => leaves a ++ leaves b
  | .div a b => leaves a ++ leaves b
  | .intImm v => [.intImm v]
  | .floatImm v => [.floatImm v]
  | .complexImm v => [.complexImm v]
  | .uintImm v => [.uintImm v]

/-- Availability of a leaf (claim C4's notion): an immediate is always
available; an Access is available iff every one of its index variables has
been visited. -/
def isAvailableLeaf (visited : List IndexVar) : IndexExpr → Bool
  | .access _ idx => idx.all (visited.contains ·)
  | _ => true

/-- The binary-node bookkeeping of
`ExtractAvailableExpressions::visit(BinaryExprNode)` (expr_tools.cpp:75-97),
applied to the two operand results: if both operands are available the node is
available and emits nothing; otherwise the node is unavailable and any
available operand is emitted. (The C++ pops the second-visited operand first,
so in the partial case the right operand would be appended before the left;
at most one is appended since this branch excludes both being available.) -/
def binaryAvailable (a b : IndexExpr) (ra rb : List IndexExpr × Bool) :
    List IndexExpr × Bool :=
  if ra.2 && rb.2 then (ra.1 ++ rb.1, true)
  else (ra.1 ++ rb.1 ++ (if rb.2 then [b] else []) ++
          (if ra.2 then [a] else []), false)

/-- The recursive core of `ExtractAvailableExpressions`
(expr_tools.cpp:22-103): returns the available expressions emitted during the
traversal together with the availability flag the node leaves on the active
stack for its parent. An Access is available iff all its index variables are
visited, a unary node inherits its operand's availability, binary nodes
follow `binaryAvailable`, and immediates are always available. -/
def extractAvailable (visited : List IndexVar) :
    IndexExpr → List IndexExpr × Bool
  | .access _ idx => ([], idx.all (visited.contains ·))
  | .neg a => extractAvailable visited a
  | .sqrt a => extractAvailable visited a
  | .add a b =>
    binaryAvailable a b (extractAvailable visited a) (extractAvailable visited b)
  | .sub a b =>
    binaryAvailable a b (extractAvailable visited a) (extractAvailable visited b)
  | .mul a b =>
    binaryAvailable a b (extractAvailable visited a) (extractAvailable visited b)
  | .div a b =>
    binaryAvailable a b (extractAvailable visited a) (extractAvailable visited b)
  | .intImm _ => ([], true)
  | .floatImm _ => ([], true)
  | .complexImm _ => ([], true)
  | .uintImm _ => ([], true)

/-- Toplevel `getAvailableExpressions` (expr_tools.cpp:17-106): runs the
extracting visitor and, if the whole expression is available, appends it to
the emitted list (expr_tools.cpp:40-43). -/
def getAvailableExpressions (e : IndexExpr) (vars : List IndexVar) :
    List IndexExpr :=
  let r := extractAvailable vars e
  if r.2 then r.1 ++ [e] else r.1

/-- Shuffling lemma for the binary case of the cover invariant: whatever the
two availability flags, the leaves emitted at a binary node together with the
node's own pending contribution cover exactly the union of what the two
operands covered. -/
theorem binaryAvailable_cover (a b : IndexExpr) (la lb : List IndexExpr)
    (ava avb : Bool) (fa fb : List IndexExpr)
    (ih1 : List.Perm ((la.map leaves).flatten ++ (if ava then leaves a else [])) fa)
    (ih2 : List.Perm ((lb.map leaves).flatten ++ (if avb then leaves b else [])) fb) :
    List.Perm
      (((binaryAvailable a b (la, ava) (lb, avb)).1.map leaves).flatten ++
        (if (binaryAvailable a b (la, ava) (lb, avb)).2
          then leaves a ++ leaves b else [])) (fa ++ fb) := by
  cases ava <;> cases avb <;>
    · rw [List.perm_iff_count]
      intro x
      have h1 := ih1.count_eq x
      have h2 := ih2.count_eq x
      simp [binaryAvailable, List.count_append] at h1 h2 ⊢
      omega

/-- Cover invariant of the extracting visitor: the leaves of the emitted
expressions, together with the leaves of the node itself when it is still
marked available, are exactly (as a multiset) the available leaves of the
subtree. -/
theorem extractAvailable_cover (visited : List IndexVar) (e : IndexExpr) :
    List.Perm
      (((extractAvailable visited e).1.map leaves).flatten ++
        (if (extractAvailable visited e).2 then leaves e else []))
      ((leaves e).filter (isAvailableLeaf visited)) := by
  induction e with
  | access tv idx =>
    simp [extractAvailable, leaves, isAvailableLeaf, List.filter_cons]
  | neg a ih => simpa [extractAvailable, leaves] using ih
  | sqrt a ih => simpa [extractAvailable, leaves] using ih
  | add a b ih1 ih2 =>
    rcases hA : extractAvailable visited a with ⟨la, ava⟩
    rcases hB : extractAvailable visited b with ⟨lb, avb⟩
    rw [hA] at ih1
    rw [hB] at ih2
    have h := binaryAvailable_cover a b la lb ava avb _ _ ih1 ih2
    simpa [extractAvailable, hA, hB, leaves, List.filter_append] using h
  | sub a b ih1 ih2 =>
    rcases hA : extractAvailable visited a with ⟨la, ava⟩
    rcases hB : extractAvailable visited b with ⟨lb, avb⟩
    rw [hA] at ih1
    rw [hB] at ih2
    have h := binaryAvailable_cover a b la lb ava avb _ _ ih1 ih2
    simpa [extractAvailable, hA, hB, leaves, List.filter_append] using h
  | mul a b ih1 ih2 =>
    rcases hA : extractAvailable visited a with ⟨la, ava⟩
    rcases hB : extractAvailable visited b with ⟨lb, avb⟩
    rw [hA] at ih1
    rw [hB] at ih2
    have h := binaryAvailable_cover a b la lb ava avb _ _ ih1 ih2
    simpa [extractAvailable, hA, hB, leaves, List.filter_append] using h
  | div a b ih1 ih2 =>
    rcases hA : extractAvailable visited a with ⟨la, ava⟩
    rcases hB : extractAvailable visited b with ⟨lb, avb⟩
    rw [hA] at ih1
    rw [hB] at ih2
    have h := binaryAvailable_cover a b la lb ava avb _ _ ih1 ih2
    simpa [extractAvailable, hA, hB, leaves, List.filter_append] using h
  | intImm v =>
    simp [extractAvailable, leaves, isAvailableLeaf, List.filter_cons]
  | floatImm v =>
    simp [extractAvailable, leaves, isAvailableLeaf, List.filter_cons]
  | complexImm v =>
    simp [extractAvailable, leaves, isAvailableLeaf, List.filter_cons]
  | uintImm v =>
    simp [extractAvailable, leaves, isAvailableLeaf, List.filter_cons]

/-- C4: the list returned by `getAvailableExpressions` covers every available
leaf exactly once (its entries' leaves form, as a multiset, exactly the
available leaves of the expression — no overlap, no omission); a binary node
with exactly one available operand emits that operand and is itself
unavailable; for `e = a(i)*b(i) + c(j)` with visited `{i}` (and `i ≠ j`) the
result is exactly `[a(i)*b(i)]`, and with visited `{i,j}` exactly `[e]`. -/
theorem getAvailableExpressions_cover :
    (∀ e vars,
      List.Perm (((getAvailableExpressions e vars).map leaves).flatten)
        ((leaves e).filter (isAvailableLeaf vars))) ∧
    (∀ vars mk, (mk = IndexExpr.add ∨ mk = IndexExpr.sub ∨
        mk = IndexExpr.mul ∨ mk = IndexExpr.div) → ∀ a b,
      ((extractAvailable vars a).2 = true →
        (extractAvailable vars b).2 = false →
        extractAvailable vars (mk a b) =
          ((extractAvailable vars a).1 ++ (extractAvailable vars b).1 ++ [a],
           false)) ∧
      ((extractAvailable vars a).2 = false →
        (extractAvailable vars b).2 = true →
        extractAvailable vars (mk a b) =
          ((extractAvailable vars a).1 ++ (extractAvailable vars b).1 ++ [b],
           false))) ∧
    (∀ (A B C : TensorVar) (i j : IndexVar), i ≠ j →
      getAvailableExpressions
        (.add (.mul (.access A [i]) (.access B [i])) (.access C [j])) [i]
        = [.mul (.access A [i]) (.access B [i])]) ∧
    (∀ (A B C : TensorVar) (i j : IndexVar),
      getAvailableExpressions
        (.add (.mul (.access A [i]) (.access B [i])) (.access C [j])) [i, j]
        = [.add (.mul (.access A [i]) (.access B [i])) (.access C [j])]) := by
  refine ⟨?_, ?_, ?_, ?_⟩
  · intro e vars
    have h := extractAvailable_cover vars e
    rcases hr : extractAvailable vars e with ⟨l, av⟩
    rw [hr] at h
    cases av <;> simpa [getAvailableExpressions, hr] using h
  · rintro vars mk (rfl | rfl | rfl | rfl) a b <;>
      exact ⟨fun h1 h2 => by simp [extractAvailable, binaryAvailable, h1, h2],
             fun h1 h2 => by simp [extractAvailable, binaryAvailable, h1, h2]⟩
  · intro A B C i j hij
    have hji : j ≠ i := Ne.symm hij
    simp [getAvailableExpressions, extractAvailable, binaryAvailable, hji]
  · intro A B C i j
    simp [getAvailableExpressions, extractAvailable, binaryAvailable]

/-- Witness for C4: the visited-set `{i}` example instantiated with concrete
distinct tensors and index variables. -/
theorem getAvailableExpressions_cover_witness :
    getAvailableExpressions
      (.add (.mul (.access tenA [varI]) (.access tenB [varI]))
        (.access tenC [varJ])) [varI]
      = [.mul (.access tenA [varI]) (.access tenB [varI])] :=
  getAvailableExpressions_cover.2.2.1 tenA tenB tenC varI varJ (by decide)

/-- The mutable definition state of a `TensorVar::Content` (expr.cpp:286-296):
the free-variable list, the optional defining expression and the accumulate
flag. A freshly constructed tensor variable has no defining expression
(expr.cpp:312-317 set only name, type and format). -/
structure TensorDef where
  freeVars : List IndexVar
  indexExpr : Option IndexExpr
  accumulate : Bool
deriving DecidableEq

/-- The user-facing assertion failures raised by definition binding (the
`taco_uassert` messages of expr.cpp:217-233 and 368-385). -/
inductive TacoError where
  | dimensionMismatch
  | transposition
  | distribution
  | reassignment
deriving DecidableEq

/-- The (index variable, dimension) pairs contributed by every Access of an
expression in visitor traversal order, pairing each index variable with the
accessed tensor's dimension at its position (the loop of expr.cpp:434-441).
The zip drops index positions beyond the tensor's order; for a well-formed
Access the tuple length equals the order (on a longer tuple the C++
`getDimension(i)` would read past the shape). -/
def accessDimBindings : IndexExpr → List (IndexVar × Dimension)
  | .access tv idx => idx.zip tv.shape
  | .neg a => accessDimBindings a
  | .sqrt a => accessDimBindings a
  | .add a b => accessDimBindings a ++ accessDimBindings b
  | .sub a b => accessDimBindings a ++ accessDimBindings b
  | .mul a b => accessDimBindings a ++ accessDimBindings b
  | .div a b => accessDimBindings a ++ accessDimBindings b
  | .intImm _ => []
  | .floatImm _ => []
  | .complexImm _ => []
  | .uintImm _ => []

/-- Modelled from the spec: `error::dimensionsTypecheck` lives in
error/error_checks.cpp, which is not among the provided sources. Per the spec
(§4.2) it checks "dimension compatibility between the free-variable tuple,
the defining expression's implied shape, and the tensor's declared shape"; we
model that as: the free-variable tuple has one variable per declared
dimension, and every index variable is bound to a single consistent dimension
across the free-variable positions and every Access of the expression. -/
def dimensionsTypecheck (freeVars : List IndexVar) (indexExpr : IndexExpr)
    (shape : List Dimension) : Bool :=
  let bindings := freeVars.zip shape ++ accessDimBindings indexExpr
  freeVars.length == shape.length &&
    bindings.all fun p => bindings.all fun q =>
      !(p.1 == q.1) || p.2 == q.2

/-- `TensorVar::setIndexExpression` (expr.cpp:368-385) as a state transformer
on the tensor's definition: the three `taco_uassert` checks run, in order,
before any mutation, so a failing check aborts with the corresponding error
and leaves the definition unchanged; on success the free-variable list, the
expression and the accumulate flag are recorded together. The transposition
and distribution checks (`error::containsTranspose`,
`error::containsDistribution`) also live outside the provided sources and the
spec gives no algorithm for them, so they are abstract predicate parameters
here (the storage format the C++ passes to the transposition check is
absorbed into the abstract predicate). Note it performs no redefinition check
of its own. -/
def setIndexExpression
    (containsTranspose containsDistribution :
      List IndexVar → IndexExpr → Bool)
    (tv : TensorVar) (d : TensorDef) (freeVars : List IndexVar)
    (indexExpr : IndexExpr) (accumulate : Bool) :
    TensorDef × Option TacoError :=
  if ¬ dimensionsTypecheck freeVars indexExpr tv.shape then
    (d, some .dimensionMismatch)
  else if containsTranspose freeVars indexExpr then (d, some .transposition)
  else if containsDistribution freeVars indexExpr then (d, some .distribution)
  else (⟨freeVars, some indexExpr, accumulate⟩, none)

/-- `Access::operator=(const IndexExpr&)` (expr.cpp:217-221): asserts that
the target tensor has no definition yet, then binds the access's index
variables as the free-variable list with the accumulate flag clear. -/
def accessAssign (ct cd : List IndexVar → IndexExpr → Bool) (tv : TensorVar)
    (indices : List IndexVar) (d : TensorDef) (e : IndexExpr) :
    TensorDef × Option TacoError :=
  if d.indexExpr.isSome then (d, some .reassignment)
  else setIndexExpression ct cd tv d indices e false

/-- `Access::operator+=(const IndexExpr&)` (expr.cpp:227-233): like
`accessAssign` but binds with the accumulate flag set. -/
def accessAccumAssign (ct cd : List IndexVar → IndexExpr → Bool)
    (tv : TensorVar) (indices : List IndexVar) (d : TensorDef)
    (e : IndexExpr) : TensorDef × Option TacoError :=
  if d.indexExpr.isSome then (d, some .reassignment)
  else setIndexExpression ct cd tv d indices e true

/-- C7: binding a definition whose free-variable shape disagrees with the
declared tensor shape fails with a dimension-mismatch error and leaves the
definition exactly as it was (in particular undefined stays undefined), and
binding through an Access assignment (plain or accumulating) to an
already-defined tensor fails with a reassignment error and leaves the first
definition intact. -/
theorem setIndexExpression_atomic_failure :
    (∀ ct cd tv d fv e acc, dimensionsTypecheck fv e tv.shape = false →
      setIndexExpression ct cd tv d fv e acc = (d, some .dimensionMismatch)) ∧
    (∀ ct cd tv idx d e, d.indexExpr.isSome = true →
      accessAssign ct cd tv idx d e = (d, some .reassignment) ∧
      accessAccumAssign ct cd tv idx d e = (d, some .reassignment)) := by
  constructor
  · intro ct cd tv d fv e acc h
    simp [setIndexExpression, h]
  · intro ct cd tv idx d e h
    exact ⟨by simp [accessAssign, h], by simp [accessAccumAssign, h]⟩

/-- Witness for C7: a tensor of order one given an empty free-variable list
fails the dimension check and its definition stays undefined; an Access
assignment to a tensor whose definition is already bound fails and leaves
that definition intact. -/
theorem setIndexExpression_atomic_failure_witness :
    setIndexExpression (fun _ _ => false) (fun _ _ => false) tenA
        ⟨[], none, false⟩ [] (.intImm 1) false
      = (⟨[], none, false⟩, some .dimensionMismatch) ∧
    accessAssign (fun _ _ => false) (fun _ _ => false) tenA [varI]
        ⟨[varI], some (.access tenB [varI]), false⟩ (.intImm 1)
      = (⟨[varI], some (.access tenB [varI]), false⟩, some .reassignment) :=
  ⟨setIndexExpression_atomic_failure.1 (fun _ _ => false) (fun _ _ => false)
      tenA ⟨[], none, false⟩ [] (.intImm 1) false (by decide),
   (setIndexExpression_atomic_failure.2 (fun _ _ => false) (fun _ _ => false)
      tenA [varI] ⟨[varI], some (.access tenB [varI]), false⟩
      (.intImm 1) rfl).1⟩

/-- C10: `setIndexExpression` itself performs no redefinition check — for any
prior definition state, including an already-bound one, it succeeds whenever
the dimension, transposition and distribution checks pass, and silently
replaces the free-variable list, expression and accumulate flag; the
single-assignment rule lives only in the assertions of `accessAssign` and
`accessAccumAssign`. -/
theorem setIndexExpression_no_redefinition_check :
    (∀ ct cd tv (d : TensorDef) fv e acc,
      dimensionsTypecheck fv e tv.shape = true →
      ct fv e = false → cd fv e = false →
      setIndexExpression ct cd tv d fv e acc = (⟨fv, some e, acc⟩, none)) ∧
    (∀ ct cd tv idx (d : TensorDef) e, d.indexExpr.isSome = true →
      (accessAssign ct cd tv idx d e).2 = some .reassignment ∧
      (accessAccumAssign ct cd tv idx d e).2 = some .reassignment) := by
  constructor
  · intro ct cd tv d fv e acc h1 h2 h3
    simp [setIndexExpression, h1, h2, h3]
  · intro ct cd tv idx d e h
    exact ⟨by simp [accessAssign, h], by simp [accessAccumAssign, h]⟩

/-- Witness for C10: calling `setIndexExpression` directly on a scalar tensor
whose definition is already bound to the immediate 1 succeeds and silently
replaces it with the immediate 2. -/
theorem setIndexExpression_no_redefinition_check_witness :
    setIndexExpression (fun _ _ => false) (fun _ _ => false) ⟨3, []⟩
        ⟨[], some (.intImm 1), false⟩ [] (.intImm 2) false
      = (⟨[], some (.intImm 2), false⟩, none) :=
  setIndexExpression_no_redefinition_check.1 (fun _ _ => false)
    (fun _ _ => false) ⟨3, []⟩ ⟨[], some (.intImm 1), false⟩ [] (.intImm 2)
    false (by decide) rfl rfl

/-- Skip-if-present insertion, the semantics of the `std::map::insert` calls
of expr.cpp:430 and 439: the pair is added only when its key is absent. The
C++ map is ordered by key; its lookup is modelled by first-match
association-list search, which agrees with map lookup under skip-if-present
insertion. -/
def insertIfAbsent (m : List (IndexVar × Dimension))
    (p : IndexVar × Dimension) : List (IndexVar × Dimension) :=
  if (m.lookup p.1).isSome then m else m ++ [p]

/-- `getIndexVarRanges` (expr.cpp:424-445): each free variable is inserted
with the declared shape's dimension at its position, then every Access's
index variables are inserted with the accessed tensor's dimensions in
traversal order; every insertion skips keys already present, so the first
encountered binding wins and no disagreement is ever reported. -/
def getIndexVarRanges (tv : TensorVar) (d : TensorDef) :
    List (IndexVar × Dimension) :=
  let withFree := (d.freeVars.zip tv.shape).foldl insertIfAbsent []
  match d.indexExpr with
  | none => withFree
  | some e => (accessDimBindings e).foldl insertIfAbsent withFree

/-- Association-list lookup distributes over append, preferring the left
list. -/
theorem lookup_append (l1 l2 : List (IndexVar × Dimension)) (v : IndexVar) :
    (l1 ++ l2).lookup v = ((l1.lookup v).orElse fun _ => l2.lookup v) := by
  induction l1 with
  | nil => simp [List.lookup, Option.orElse]
  | cons p l ih =>
    rcases p with ⟨k, dim⟩
    cases hp : v == k <;> simp [List.lookup, hp, ih, Option.orElse]

/-- Folding skip-if-present insertions looks up like the accumulator
followed by the inserted list: the first occurrence of a key anywhere in
that order determines its value. -/
theorem foldl_insertIfAbsent_lookup (l : List (IndexVar × Dimension)) :
    ∀ (acc : List (IndexVar × Dimension)) (v : IndexVar),
      ((l.foldl insertIfAbsent acc).lookup v) =
        ((acc.lookup v).orElse fun _ => l.lookup v) := by
  induction l with
  | nil =>
    intro acc v
    cases h : acc.lookup v <;> simp [h, List.lookup, Option.orElse]
  | cons p l ih =>
    intro acc v
    rcases p with ⟨k, dim⟩
    simp only [List.foldl_cons, ih]
    show ((insertIfAbsent acc (k, dim)).lookup v).orElse _ = _
    unfold insertIfAbsent
    by_cases hm : (List.lookup k acc).isSome
    · rw [if_pos hm]
      cases hv : List.lookup v acc with
      | some d => simp [hv, Option.orElse]
      | none =>
        have hvk : (v == k) = false := by
          cases hvk : v == k
          · rfl
          · exfalso
            have hveq : v = k := eq_of_beq hvk
            subst hveq
            rw [hv] at hm
            simp at hm
        simp [hv, hvk, Option.orElse, List.lookup]
    · rw [if_neg hm]
      rw [lookup_append]
      cases hv : List.lookup v acc with
      | some d => simp [hv, Option.orElse]
      | none =>
        cases hvk : v == k <;>
          simp [hv, hvk, Option.orElse, List.lookup]

/-- C9: for a tensor with a bound definition, `getIndexVarRanges` records for
every index variable the dimension of the first position in which the
variable occurs in the sequence of free-variable bindings followed by Access
bindings in traversal order (first conjunct: its lookup coincides with
first-match lookup in that concatenated sequence); in particular a
free-variable binding is never overwritten by a later Access binding with a
different dimension, and no error is raised on disagreement (the function is
total). -/
theorem getIndexVarRanges_first_binding (tv : TensorVar) (d : TensorDef)
    (e : IndexExpr) (hd : d.indexExpr = some e) :
    (∀ v, (getIndexVarRanges tv d).lookup v =
      ((d.freeVars.zip tv.shape ++ accessDimBindings e).lookup v)) ∧
    (∀ v dim, (d.freeVars.zip tv.shape).lookup v = some dim →
      (getIndexVarRanges tv d).lookup v = some dim) := by
  have main : ∀ v, (getIndexVarRanges tv d).lookup v =
      ((d.freeVars.zip tv.shape ++ accessDimBindings e).lookup v) := by
    intro v
    unfold getIndexVarRanges
    rw [hd]
    rw [foldl_insertIfAbsent_lookup, foldl_insertIfAbsent_lookup,
      lookup_append]
    cases h : (d.freeVars.zip tv.shape).lookup v <;>
      simp [h, List.lookup, Option.orElse]
  refine ⟨main, ?_⟩
  intro v dim h
  rw [main v, lookup_append, h]
  rfl

/-- Witness for C9: the free variable `i` of a tensor of dimension 2 also
indexes an accessed tensor of dimension 3 inside the definition; the
recorded range for `i` is the first binding, dimension 2, and no error is
raised. -/
theorem getIndexVarRanges_first_binding_witness :
    (getIndexVarRanges ⟨4, [⟨2⟩]⟩
        ⟨[varI], some (.access ⟨5, [⟨3⟩]⟩ [varI]), false⟩).lookup varI
      = some ⟨2⟩ :=
  (getIndexVarRanges_first_binding ⟨4, [⟨2⟩]⟩
      ⟨[varI], some (.access ⟨5, [⟨3⟩]⟩ [varI]), false⟩
      (.access ⟨5, [⟨3⟩]⟩ [varI]) rfl).2 varI ⟨2⟩ (by decide)

/-- The low-level arithmetic IR (`ir::Expr`, from taco/ir/ir.h outside the
provided sources), restricted to exactly the constructors
`lowerToScalarExpression` emits: variables (names modelled as numeric ids),
the Values property of a tensor (`GetProperty::make(tensor, Values)`), memory
loads, the arithmetic operators, and literals. -/
inductive IRExpr where
  | var (id : Nat)
  | values (tensor : IRExpr)
  | load (buffer addr : IRExpr)
  | neg (a : IRExpr)
  | sqrt (a : IRExpr)
  | add (a b : IRExpr)
  | sub (a b : IRExpr)
  | mul (a b : IRExpr)
  | div (a b : IRExpr)
  | intLit (v : Int)
  | floatLit (v : Int)
  | complexLit (v : Int × Int)
  | uintLit (v : Nat)
deriving DecidableEq

/-- A storage iterator, as consumed from the iterator subsystem (outside the
provided sources): its current position-pointer variable (`getPtrVar`) and
its owning tensor (`getTensor`). -/
structure StorageIterator where
  ptrVar : IRExpr
  tensor : IRExpr
deriving DecidableEq

/-- A tensor path handle from the iteration-graph subsystem (outside the
provided sources); the lowering code only reads its last step, used to index
the iterator table. -/
structure TensorPath where
  lastStep : Nat
deriving DecidableEq

/-- The iterator table (`Iterators`, outside the provided sources): the root
iterator of a path (`getRoot`) and the iterator at a path step
(`operator[]`). -/
structure Iterators where
  getRoot : TensorPath → StorageIterator
  atStep : Nat → StorageIterator

/-- The iteration-graph interface (outside the provided sources): the
canonical tensor path of an Access (`IterationGraph::getTensorPath`, keyed by
the access node's tensor variable and index tuple). -/
structure IterationGraph where
  getTensorPath : TensorVar → List IndexVar → TensorPath

/-- `lowerToScalarExpression` (lower_codegen.cpp:48-132): an Access to a
tensor registered in the temporaries map lowers directly to the stored value
(lower_codegen.cpp:75-78); otherwise its tensor path is resolved, the
iterator is the root iterator for an order-zero tensor and the iterator at
the path's last step otherwise, and a load from that iterator's value buffer
at its position pointer is emitted (lower_codegen.cpp:79-88). Operators and
immediates translate one-to-one. -/
def lowerToScalarExpression (its : Iterators) (graph : IterationGraph)
    (temporaries : List (TensorVar × IRExpr)) : IndexExpr → IRExpr
  | .access tv idx =>
    match temporaries.lookup tv with
    | some v => v
    | none =>
      let path := graph.getTensorPath tv idx
      let iterator :=
        if tv.shape.length == 0 then its.getRoot path
        else its.atStep path.lastStep
      .load (.values iterator.tensor) iterator.ptrVar
  | .neg a => .neg (lowerToScalarExpression its graph temporaries a)
  | .sqrt a => .sqrt (lowerToScalarExpression its graph temporaries a)
  | .add a b => .add (lowerToScalarExpression its graph temporaries a)
      (lowerToScalarExpression its graph temporaries b)
  | .sub a b => .sub (lowerToScalarExpression its graph temporaries a)
      (lowerToScalarExpression its graph temporaries b)
  | .mul a b => .mul (lowerToScalarExpression its graph temporaries a)
      (lowerToScalarExpression its graph temporaries b)
  | .div a b => .div (lowerToScalarExpression its graph temporaries a)
      (lowerToScalarExpression its graph temporaries b)
  | .intImm v => .intLit v
  | .floatImm v => .floatLit v
  | .complexImm v => .complexLit v
  | .uintImm v => .uintLit v

/-- C8: an Access to a tensor in the temporaries map lowers directly to the
stored value, and the result is the same for every iterator table and
iteration graph (it never consults them for that tensor); an Access to a
tensor not in the map lowers to a load from the value buffer of the iterator
at its tensor path's last step — or of the root iterator when the tensor has
order zero — at that iterator's position pointer. -/
theorem lowerToScalarExpression_access :
    (∀ its graph temps tv idx v, temps.lookup tv = some v →
      lowerToScalarExpression its graph temps (.access tv idx) = v ∧
      (∀ its2 graph2,
        lowerToScalarExpression its2 graph2 temps (.access tv idx) = v)) ∧
    (∀ its graph temps tv idx, temps.lookup tv = none →
      lowerToScalarExpression its graph temps (.access tv idx) =
        (let path := graph.getTensorPath tv idx
         let iterator :=
           if tv.shape.length == 0 then its.getRoot path
           else its.atStep path.lastStep
         .load (.values iterator.tensor) iterator.ptrVar)) := by
  constructor
  · intro its graph temps tv idx v h
    exact ⟨by simp [lowerToScalarExpression, h],
           fun its2 graph2 => by simp [lowerToScalarExpression, h]⟩
  · intro its graph temps tv idx h
    simp [lowerToScalarExpression, h]

/-- A concrete iterator table and iteration graph for the C8 witness. -/
def itersW : Iterators := ⟨fun _ => ⟨.var 0, .var 1⟩, fun _ => ⟨.var 2, .var 3⟩⟩

def graphW : IterationGraph := ⟨fun _ _ => ⟨0⟩⟩

/-- Witness for C8: with `tenA` registered as a temporary holding variable 7,
an Access to `tenA` lowers to that variable; an Access to the unregistered
order-one tensor `tenB` lowers to a load from the last-step iterator's value
buffer at its position pointer. -/
theorem lowerToScalarExpression_access_witness :
    lowerToScalarExpression itersW graphW [(tenA, .var 7)]
        (.access tenA [varI]) = .var 7 ∧
    lowerToScalarExpression itersW graphW [(tenA, .var 7)]
        (.access tenB [varI])
      = .load (.values (.var 3)) (.var 2) :=
  ⟨(lowerToScalarExpression_access.1 itersW graphW [(tenA, .var 7)] tenA
      [varI] (.var 7) (by decide)).1,
   lowerToScalarExpression_access.2 itersW graphW [(tenA, .var 7)] tenB
      [varI] (by decide)⟩

end Taco
